import Mathlib

/-!
A shallow embedding of the enrichment pipeline of `webb.py`:
the address cache (`cache_get`/`cache_put`), the address resolver
(`get_company_address_from_google`), the region classifier
(`normalize_region_from_address`, `is_korea_address`,
`quick_is_korea_name`, `is_foreign_branch_in_korea`), category
normalization (`_normalize_cat`) and the pipeline (`filter_and_enrich`).

Modelling conventions:
  * The SQLite-backed cache is a `Store`: an association list from company
    name to address, plus two failure flags modelling the `except Exception`
    branches of `cache_get`/`cache_put` (a failing backing store).
  * The external lookup surface (HTTP fetch + HTML parsing of one query) is
    an oracle `web : String → String` mapping a query string to the
    normalized address text extracted from the response page; `""` stands
    for "request failed / non-200 / no selector produced text".
  * Functions that touch the cache or the web thread the `Store` explicitly
    and return the list of search queries actually issued, so that claims
    about call counts on the lookup surface are statable.
  * Python's `str.lower` is modelled as ASCII lowercasing (the program's
    alphabet is ASCII + Hangul, on which the two agree); `str.strip` as
    `String.trim`; the regex word class `\w` as ASCII alphanumerics,
    underscore and Hangul (the characters occurring in this program's data).
  * The `ThreadPoolExecutor` fan-out resolves each submitted item exactly
    once; it is modelled as a sequential fold over the submitted items
    (each name is submitted at most once per category, and the per-item
    results are keyed by name, so the fold is observation-equivalent).
-/

/-- A row of the scraped directory table: `{"type": cat, "name": name, "url": url}`. -/
structure Row where
  type : String
  name : String
  url : String
deriving Repr, DecidableEq

/-- A row of the final report, `{"회사 유형", "회사명", "지역", "주소(구글)", "지사구분", "링크"}`
(category, name, region, address, branch_tag, url). -/
structure ReportRow where
  category : String
  name : String
  region : String
  address : String
  branch_tag : String
  url : String
deriving Repr, DecidableEq

/-- The persistent address cache (SQLite table `addr_cache`), modelled as an
association list keyed by company name, plus failure flags for the backing
store (the `except Exception` paths of `cache_get` / `cache_put`). -/
structure Store where
  table : List (String × String)
  getFails : Bool
  putFails : Bool
deriving Repr, DecidableEq

/-- A store with a working backing layer and the given table. -/
def Store.ofTable (t : List (String × String)) : Store := ⟨t, false, false⟩

/-- `cache_get(name)`: `SELECT address FROM addr_cache WHERE name=?`; any
store-layer exception degrades to `None`. -/
def cache_get (s : Store) (name : String) : Option String :=
  if s.getFails then none
  else match s.table.find? (fun p => p.1 == name) with
       | some p => some p.2
       | none => none

/-- `cache_put(name, address)`: `INSERT OR REPLACE`; any store-layer exception
degrades to a no-op.  (`address or ""` is the identity on strings.) -/
def cache_put (s : Store) (name address : String) : Store :=
  if s.putFails then s
  else { s with table := (name, address) :: s.table.filter (fun p => !(p.1 == name)) }

/-! ## Text helpers (Python `str` / `re` fragments used by the classifier) -/

/-- ASCII lowercasing of a character list (Python `str.lower` on this
program's ASCII+Hangul alphabet). -/
def lowerChars (l : List Char) : List Char := l.map Char.toLower

/-- ASCII lowercasing of a string. -/
def lowerAscii (s : String) : String := String.mk (lowerChars s.toList)

/-- Does `pat` occur at the head of `s` (exact character match)? -/
def listStartsWith : List Char → List Char → Bool
  | [], _ => true
  | _ :: _, [] => false
  | p :: ps, c :: cs => p == c && listStartsWith ps cs

/-- Substring scan: does `pat` occur anywhere in `s`? -/
def subAux (pat : List Char) : List Char → Bool
  | [] => pat.isEmpty
  | s@(_ :: rest) => listStartsWith pat s || subAux pat rest

/-- Python's `pat in s` substring test. -/
def containsSub (pat s : String) : Bool := subAux pat.toList s.toList

/-- Python's `str.strip()`: drop leading and trailing whitespace. -/
def strTrim (s : String) : String :=
  String.mk (((s.toList.dropWhile Char.isWhitespace).reverse.dropWhile Char.isWhitespace).reverse)

/-- The regex word class `\w`, restricted to the alphabets occurring in this
program: ASCII alphanumerics, underscore, and Hangul (jamo, compatibility
jamo, syllables). -/
def isWordChar (c : Char) : Bool :=
  c.isAlphanum || c == '_' ||
  (0x1100 ≤ c.val.toNat && c.val.toNat ≤ 0x11FF) ||
  (0x3130 ≤ c.val.toNat && c.val.toNat ≤ 0x318F) ||
  (0xAC00 ≤ c.val.toNat && c.val.toNat ≤ 0xD7A3)

/-- Scan of `\b<pat>\b` (word-bounded occurrence of `pat`): `prev` is the
character just before the current position. -/
def boundedAux (pat : List Char) : Option Char → List Char → Bool
  | prev, s =>
    (listStartsWith pat s
      && (match prev with | none => true | some c => !isWordChar c)
      && (match s.drop pat.length with | [] => true | c :: _ => !isWordChar c))
    || (match s with
        | [] => false
        | c :: rest => boundedAux pat (some c) rest)

/-- `re.search(r"\b<pat>\b", s, re.IGNORECASE)` for a literal `pat`. -/
def boundedSub (pat s : String) : Bool :=
  boundedAux (lowerChars pat.toList) none (lowerChars s.toList)

/-- After a `(`: the `.*\)` tail of `\(.*Korea.*\)` — a `)` before any newline. -/
def p3Close : List Char → Bool
  | [] => false
  | c :: rest => if c == ')' then true else if c == '\n' then false else p3Close rest

/-- After a `(`: the `.*Korea.*\)` tail — `korea` (case already folded), then a
`)` before any newline.  (`.` does not match a newline, so a successful match
lies on one line; if the close-scan from the first `korea` occurrence on the
line fails, no later occurrence on the same line can succeed.) -/
def p3Korea : List Char → Bool
  | [] => false
  | s@(c :: rest) =>
    if c == '\n' then false
    else if listStartsWith ("korea".toList) s then p3Close (s.drop 5)
    else p3Korea rest

/-- `re.search(r"\(.*Korea.*\)", s, re.IGNORECASE)` on the case-folded text. -/
def p3Scan : List Char → Bool
  | [] => false
  | c :: rest => (if c == '(' then p3Korea rest || p3Scan rest else false) || p3Scan rest

/-- After a `㈜`: a `코리아` before any newline (the `.*코리아` tail of `㈜.*코리아`). -/
def p5Korea : List Char → Bool
  | [] => false
  | s@(c :: rest) =>
    if c == '\n' then false
    else if listStartsWith ("코리아".toList) s then true
    else p5Korea rest

/-- `re.search(r"㈜.*코리아", s)`. -/
def p5Scan : List Char → Bool
  | [] => false
  | c :: rest => (if c == '㈜' then p5Korea rest else false) || p5Scan rest

/-- `re.search(r"^한국\s", s)`: the string starts with `한국` followed by a
whitespace character. -/
def startsHangukSpace (s : String) : Bool :=
  match s.toList with
  | '한' :: '국' :: c :: _ => c.isWhitespace
  | _ => false

/-- `quick_is_korea_name(name)`: any of the `_BRANCH_NAME_HINTS` patterns
(`\b코리아\b`, `\bKorea\b`, `\(.*Korea.*\)`, `^한국\s`, `㈜.*코리아`, all with
`re.IGNORECASE`) matches the name. -/
def quick_is_korea_name (name : String) : Bool :=
  boundedSub "코리아" name || boundedSub "Korea" name ||
  p3Scan (lowerChars name.toList) || startsHangukSpace name ||
  p5Scan name.toList

/-! ## Category normalization -/

/-- `THEISE_CAT_MAP`: canonical category → list of surface aliases. -/
def THEISE_CAT_MAP : List (String × List String) :=
  [("Integrated Device Manufacturer", ["Integrated Device Manufacturer", "IDM", "종합반도체"]),
   ("Foundry", ["Foundry", "파운드리"]),
   ("CAD", ["CAD", "EDA", "설계도구", "설계 자동화"]),
   ("CAD(해외기업 지사)", ["CAD(해외기업 지사)"]),
   ("Fabless", ["Fabless", "팹리스"]),
   ("Design house", ["Design house", "디자인하우스", "Desing house"]),
   ("IT기업", ["IT기업", "IT"]),
   ("SW", ["SW", "소프트웨어"]),
   ("기계제조및센서", ["기계제조및센서", "기계제조", "센서"]),
   ("반도체 유통", ["반도체 유통", "유통"]),
   ("부품제조", ["부품제조", "부품"]),
   ("제조업", ["제조업", "Manufacturing"]),
   ("해외기업 지사", ["해외기업 지사"]),
   ("해외기업 지사(유통)", ["해외기업 지사(유통)"]),
   ("해외기업(중국,유통)", ["해외기업(중국,유통)"])]

/-- The alias-table scan of `_normalize_cat`: per entry, first the exact key
match, then the case-insensitive alias match. -/
def normCatAux (lab : String) : List (String × List String) → Option String
  | [] => none
  | (k, aliases) :: rest =>
    if lab == k then some k
    else if aliases.any (fun a => lowerAscii a == lowerAscii lab) then some k
    else normCatAux lab rest

/-- `_normalize_cat(label)`: strip, then scan `THEISE_CAT_MAP`; an unmatched
label falls through as the *stripped* label. -/
def _normalize_cat (label : String) : String :=
  let lab := strTrim label
  (normCatAux lab THEISE_CAT_MAP).getD lab

/-! ## Region classifier -/

/-- `REGION_KEYWORDS`: region label → surface aliases. -/
def REGION_KEYWORDS : List (String × List String) :=
  [("서울", ["서울", "Seoul"]),
   ("경기", ["경기", "경기도", "Gyeonggi", "Gyeonggi-do",
           "Seongnam", "Bundang", "Pangyo", "Suwon", "Yongin", "Hwaseong",
           "Giheung", "Pyeongtaek", "Icheon", "Ansan"]),
   ("인천", ["인천", "Incheon", "Songdo"]),
   ("부산", ["부산", "Busan"]),
   ("대구", ["대구", "Daegu"]),
   ("대전", ["대전", "Daejeon"]),
   ("광주", ["광주", "Gwangju"]),
   ("울산", ["울산", "Ulsan"]),
   ("세종", ["세종", "Sejong"]),
   ("충북", ["충북", "Chungbuk", "Chungcheongbuk-do", "Cheongju"]),
   ("충남", ["충남", "Chungnam", "Chungcheongnam-do", "Asan", "Cheonan", "Seosan", "Dangjin"]),
   ("전북", ["전북", "Jeonbuk", "Jeollabuk-do", "Jeonju", "Gunsan", "Iksan"]),
   ("전남", ["전남", "Jeonnam", "Jeollanam-do", "Gwangyang", "Yeosu", "Suncheon"]),
   ("경북", ["경북", "Gyeongbuk", "Gyeongsangbuk-do", "Gumi", "Pohang"]),
   ("경남", ["경남", "Gyeongnam", "Gyeongsangnam-do", "Changwon", "Gimhae"]),
   ("제주", ["제주", "Jeju"])]

/-- The table scan of `normalize_region_from_address` over the lowered address. -/
def regionAux (a : String) : List (String × List String) → String
  | [] => ""
  | (label, keys) :: rest =>
    if keys.any (fun k => containsSub (lowerAscii k) a) then label else regionAux a rest

/-- `normalize_region_from_address(addr)`: first region label one of whose
aliases occurs (case-insensitively) in the address, else `""`. -/
def normalize_region_from_address (addr : String) : String :=
  regionAux (lowerAscii addr) REGION_KEYWORDS

/-- `is_korea_address(addr)`: empty is not domestic; a recognized region is;
otherwise `re.search(r"\b(Korea|Republic of Korea|대한민국)\b", addr, re.IGNORECASE)`. -/
def is_korea_address (addr : String) : Bool :=
  if addr == "" then false
  else if !(normalize_region_from_address addr == "") then true
  else boundedSub "Korea" addr || boundedSub "Republic of Korea" addr ||
       boundedSub "대한민국" addr

/-- `is_foreign_branch_in_korea(company_name, address)`. -/
def is_foreign_branch_in_korea (company_name address : String) : Bool :=
  quick_is_korea_name company_name && is_korea_address address

/-! ## Address resolver -/

/-- The query loop of `get_company_address_from_google`: issue the queries in
order against the lookup surface `web`, stop at the first non-empty extracted
address.  Returns the winning address (possibly `""`) and the list of queries
actually issued. -/
def runQueries (web : String → String) : List String → String × List String
  | [] => ("", [])
  | q :: rest =>
    let a := web q
    if a == "" then
      let res := runQueries web rest
      (res.1, q :: res.2)
    else (a, [q])

/-- `get_company_address_from_google(name)`: empty name short-circuits; a cache
hit (any value, including `""`) returns immediately with no queries; otherwise
the two fixed queries are tried in order and the result (possibly `""`) is
written to the cache.  Returns `(address, store after, queries issued)`. -/
def get_company_address_from_google (web : String → String) (s : Store) (name : String) :
    String × Store × List String :=
  if name == "" then ("", s, [])
  else
    match cache_get s name with
    | some hit => (hit, s, [])
    | none =>
      let res := runQueries web [name ++ " 주소", name ++ " Korea address"]
      (res.1, cache_put s name res.1, res.2)

/-! ## Enrichment pipeline -/

/-- `(region_final, address, branch_kr)` as produced per company. -/
abbrev Triple := String × String × Bool

/-- The per-call lookup trace: for each invocation of the resolver from the
pipeline's fan-out, the company name and the search queries issued for it. -/
abbrev Trace := List (String × List String)

/-- `_resolve_address_for_item(item, do_lookup)`.  With `do_lookup = false`
only the cache and the quick name heuristic are consulted (no lookup-surface
access); with `do_lookup = true` the resolver runs and the address is
classified.  Returns `(triple, store after, queries issued)`.
`classifyLookup` is the region computation of the `do_lookup` branch:
`region_label if region_label else "서울" if "Seoul" in addr else ""` when the
address is domestic, `"해외"` otherwise. -/
def classifyLookup (addr : String) : String :=
  if is_korea_address addr then
    let region_label := normalize_region_from_address addr
    if !(region_label == "") then region_label
    else if containsSub "Seoul" addr then "서울" else ""
  else "해외"

def _resolve_address_for_item (web : String → String) (s : Store) (item : Row)
    (do_lookup : Bool) : Triple × Store × List String :=
  let name := item.name
  if !do_lookup then
    let addr := (cache_get s name).getD ""
    if addr == "" && quick_is_korea_name name then
      ((if containsSub "서울" name then "서울" else "", "", true), s, [])
    else (("", addr, false), s, [])
  else
    let res := get_company_address_from_google web s name
    let addr := res.1
    let region_final := classifyLookup addr
    ((region_final, addr, is_foreign_branch_in_korea name addr), res.2.1, res.2.2)

/-- The duplicate-name removal of `filter_and_enrich`: keep the first row per
stripped name, dropping rows whose stripped name is empty (`seen` holds the
stripped names already kept). -/
def dedupGo (seen : List String) : List Row → List Row
  | [] => []
  | r :: rest =>
    let nm := strTrim r.name
    if !(nm == "") && !(seen.contains nm) then r :: dedupGo (nm :: seen) rest
    else dedupGo seen rest

/-- Deduplicate a category's rows by stripped company name, first occurrence kept. -/
def dedupFirst (arr : List Row) : List Row := dedupGo [] arr

/-- The fast cache-based classification of `filter_and_enrich` applied to
prebuilt (cache-resolvable) items. -/
def classifyCached (name addr : String) : Triple :=
  let reg_final :=
    if is_korea_address addr then normalize_region_from_address addr
    else if !(addr == "") then "해외" else ""
  (reg_final, addr, is_foreign_branch_in_korea name addr)

/-- The cache split of `filter_and_enrich`: an item is prebuilt when the cache
has an entry and (no lookup is needed, or the entry is non-empty); otherwise
it must attempt fresh resolution.  Returns `(prebuilt, to_resolve)`. -/
def splitCached (s : Store) (need_lookup : Bool) : List Row → List (Row × Triple) × List Row
  | [] => ([], [])
  | r :: rest =>
    let res := splitCached s need_lookup rest
    match cache_get s r.name with
    | some cached =>
      if !need_lookup || !(cached == "") then ((r, classifyCached r.name cached) :: res.1, res.2)
      else (res.1, r :: res.2)
    | none => (res.1, r :: res.2)

/-- The fresh-resolution fan-out: resolve each submitted item once (the worker
pool, modelled sequentially), producing the name-keyed results map, the store
after all cache writes, and the trace of resolver invocations. -/
def resolveAll (web : String → String) (s : Store) : List Row → List (String × Triple) × Store × Trace
  | [] => ([], s, [])
  | r :: rest =>
    let one := _resolve_address_for_item web s r true
    let res := resolveAll web one.2.1 rest
    ((r.name, one.1) :: res.1, res.2.1, (r.name, one.2.2) :: res.2.2)

/-- `accept_region(region_final, addr)` from `filter_and_enrich`. -/
def accept_region (regions_set : List String) (region_final addr : String) : Bool :=
  if regions_set.isEmpty then true
  else if region_final == "해외" then regions_set.contains "해외"
  else if !(region_final == "") && regions_set.contains region_final then true
  else regions_set.any (fun reg => containsSub reg addr)

/-- Apply the branch filter and the region filter to one item and build its
report row (the two identical append blocks of `filter_and_enrich`). -/
def buildRow (only_foreign_branch : Bool) (regions_set : List String) (t : String)
    (r : Row) (triple : Triple) : Option ReportRow :=
  let region_final := triple.1
  let addr := triple.2.1
  let branch_kr := triple.2.2
  if only_foreign_branch && !branch_kr then none
  else if !(accept_region regions_set region_final addr) then none
  else some
    { category := t
      name := r.name
      region :=
        if !(region_final == "") then region_final
        else if !(addr == "") && !(is_korea_address addr) then "해외" else ""
      address := addr
      branch_tag := if branch_kr then "외국계 지사(한국)" else ""
      url := r.url }

/-- One category group of `filter_and_enrich`: dedupe, split on the cache,
resolve the rest (fresh lookups only when `need_lookup`; otherwise the quick
heuristic path of `_resolve_address_for_item` with `do_lookup = False`),
then filter and build the rows, cache-resolved items first.  Returns the
category's surviving rows *before* the per-category cap. -/
def processCategory (web : String → String) (s : Store) (need_lookup only_foreign_branch : Bool)
    (regions_set : List String) (t : String) (arr : List Row) :
    List ReportRow × Store × Trace :=
  let uniq := dedupFirst arr
  let sp := splitCached s need_lookup uniq
  let prebuilt := sp.1
  let to_resolve := sp.2
  let rst :=
    if need_lookup then resolveAll web s to_resolve
    else (to_resolve.map (fun r => (r.name, (_resolve_address_for_item web s r false).1)), s, [])
  let results_map := rst.1
  let fromPre := prebuilt.filterMap (fun p => buildRow only_foreign_branch regions_set t p.1 p.2)
  let fromRes := to_resolve.filterMap (fun r =>
    buildRow only_foreign_branch regions_set t r
      (((results_map.find? (fun p => p.1 == r.name)).map (·.2)).getD ("", "", false)))
  (fromPre ++ fromRes, rst.2.1, rst.2.2)

/-- The per-category loop of `filter_and_enrich`: process each group, apply the
`enriched[:max(1, per_type)]` cap, and accumulate rows, store and trace. -/
def processGroups (web : String → String) (s : Store) (need_lookup only_foreign_branch : Bool)
    (regions_set : List String) (per_type : Int) :
    List (String × List Row) → List ReportRow × Store × Trace
  | [] => ([], s, [])
  | (t, arr) :: rest =>
    let one := processCategory web s need_lookup only_foreign_branch regions_set t arr
    let res := processGroups web one.2.1 need_lookup only_foreign_branch regions_set per_type rest
    (one.1.take (max 1 per_type).toNat ++ res.1, res.2.1, one.2.2 ++ res.2.2)

/-- Append a row to its category's group, creating the group at the end on
first sight of the key (Python's insertion-ordered `dict.setdefault`). -/
def groupInsert (t : String) (r : Row) : List (String × List Row) → List (String × List Row)
  | [] => [(t, [r])]
  | (k, l) :: rest =>
    if k == t then (k, l ++ [r]) :: rest else (k, l) :: groupInsert t r rest

/-- The grouping pass of `filter_and_enrich`: normalize each row's category,
drop rows outside `wants` (when `wants` is non-empty), group by category in
insertion order. -/
def buildGrouped (wants : List String) : List Row → List (String × List Row) → List (String × List Row)
  | [], g => g
  | r :: rest, g =>
    let t := _normalize_cat r.type
    if !wants.isEmpty && !(wants.contains t) then buildGrouped wants rest g
    else buildGrouped wants rest (groupInsert t r g)

/-- `filter_and_enrich(rows, pick_types, per_type, filter_regions,
only_foreign_branch)`.  Returns `(report rows, store after, lookup trace)`. -/
def filter_and_enrich (web : String → String) (s : Store) (rows : List Row)
    (pick_types : List String) (per_type : Int) (filter_regions : List String)
    (only_foreign_branch : Bool) : List ReportRow × Store × Trace :=
  let wants := pick_types.map _normalize_cat
  let grouped := buildGrouped wants rows []
  let regions_set := filter_regions
  let need_address_lookup := !regions_set.isEmpty || only_foreign_branch
  processGroups web s need_address_lookup only_foreign_branch regions_set per_type grouped

/-! ## Auxiliary definitions used by the statements -/

/-- Names for which the fan-out actually issued fresh search queries. -/
def queriedNames (tr : Trace) : List String :=
  (tr.filter (fun p => !p.2.isEmpty)).map (fun p => p.1)

/-- ASCII uppercasing (to state case-insensitivity of the alias table). -/
def upperAscii (s : String) : String := String.mk (s.toList.map Char.toUpper)

/-- A lookup surface on which every query fails to produce an address. -/
def noWeb : String → String := fun _ => ""

/-- A synthetic input of 10 distinct company names in one category. -/
def sampleTenRows : List Row :=
  [⟨"Fabless", "Co0", "u"⟩, ⟨"Fabless", "Co1", "u"⟩, ⟨"Fabless", "Co2", "u"⟩,
   ⟨"Fabless", "Co3", "u"⟩, ⟨"Fabless", "Co4", "u"⟩, ⟨"Fabless", "Co5", "u"⟩,
   ⟨"Fabless", "Co6", "u"⟩, ⟨"Fabless", "Co7", "u"⟩, ⟨"Fabless", "Co8", "u"⟩,
   ⟨"Fabless", "Co9", "u"⟩]

/-! ## Helper lemmas -/

theorem cache_put_getFails (s : Store) (n a : String) :
    (cache_put s n a).getFails = s.getFails := by
  unfold cache_put; split <;> rfl

theorem cache_put_putFails (s : Store) (n a : String) :
    (cache_put s n a).putFails = s.putFails := by
  unfold cache_put; split <;> rfl

theorem cache_get_put_self (s : Store) (hg : s.getFails = false) (hp : s.putFails = false)
    (n a : String) : cache_get (cache_put s n a) n = some a := by
  simp [cache_get, cache_put, hp, hg]

/-! ## Claims -/

/-- C9: `cache_get` and `cache_put` never raise to the caller: a backing-store
failure makes `cache_get` degrade to absent (`none`) and `cache_put` degrade to
a no-op leaving the store unchanged. -/
theorem C9_thm (s : Store) (n a : String) :
    (s.getFails = true → cache_get s n = none) ∧
    (s.putFails = true → cache_put s n a = s) := by
  constructor
  · intro h; simp [cache_get, h]
  · intro h; simp [cache_put, h]

/-- C9 witness at a concrete failing store. -/
theorem C9_witness :
    cache_get ⟨[("A", "addr")], true, true⟩ "A" = none ∧
    cache_put ⟨[("A", "addr")], true, true⟩ "A" "other" = ⟨[("A", "addr")], true, true⟩ :=
  ⟨(C9_thm ⟨[("A", "addr")], true, true⟩ "A" "other").1 rfl,
   (C9_thm ⟨[("A", "addr")], true, true⟩ "A" "other").2 rfl⟩

/-- C5: on a working backing store, `cache_put` then `cache_get` for the same
name returns exactly the stored address (including the empty string), and
`cache_get` for a name never stored returns absent (`none`). -/
theorem C5_thm (s : Store) (n a : String) (hg : s.getFails = false) (hp : s.putFails = false) :
    cache_get (cache_put s n a) n = some a ∧
    (∀ (s' : Store) (n' : String),
      s'.table.all (fun p => !(p.1 == n')) → cache_get s' n' = none) := by
  refine ⟨cache_get_put_self s hg hp n a, ?_⟩
  intro s' n' h
  unfold cache_get
  split
  · rfl
  · have hnone : s'.table.find? (fun p => p.1 == n') = none := by
      rw [List.find?_eq_none]
      intro p hp
      have := List.all_eq_true.mp h p hp
      simpa using this
    rw [hnone]

/-- C5 witness: storing the empty string and reading it back, and a miss on a
fresh name. -/
theorem C5_witness :
    cache_get (cache_put (Store.ofTable []) "ACME" "") "ACME" = some "" ∧
    cache_get (Store.ofTable [("other", "x")]) "ACME" = none :=
  ⟨(C5_thm (Store.ofTable []) "ACME" "" rfl rfl).1,
   (C5_thm (Store.ofTable []) "ACME" "" rfl rfl).2 (Store.ofTable [("other", "x")]) "ACME"
     (by decide)⟩

theorem runQueries_ne_nil (web : String → String) (q : String) (qs : List String) :
    (runQueries web (q :: qs)).2 ≠ [] := by
  simp only [runQueries]
  split <;> simp

/-- C4: a cache hit (any value, including the empty string) makes the resolver
return the cached value immediately with no external queries; and on a working
backing store, a second resolver call right after a first one issues no
queries and returns the first call's value.  (An empty company name
short-circuits before the cache is consulted, so the first part is about
non-empty names.) -/
theorem C4_thm (web : String → String) (s : Store) (name v : String)
    (h1 : name ≠ "") (h2 : cache_get s name = some v) :
    get_company_address_from_google web s name = (v, s, []) ∧
    (∀ (s₂ : Store) (nm : String), s₂.getFails = false → s₂.putFails = false →
      get_company_address_from_google web (get_company_address_from_google web s₂ nm).2.1 nm =
        ((get_company_address_from_google web s₂ nm).1,
         (get_company_address_from_google web s₂ nm).2.1, [])) := by
  constructor
  · unfold get_company_address_from_google
    rw [if_neg (by simpa using h1), h2]
  · intro s₂ nm hg hp
    by_cases hnm : nm = ""
    · subst hnm; rfl
    · unfold get_company_address_from_google
      rw [if_neg (by simpa using hnm)]
      cases hc : cache_get s₂ nm with
      | some hit => simp [if_neg (by simpa using hnm), hc]
      | none =>
        simp only [if_neg (by simpa using hnm : ¬(nm == "") = true), hc]
        rw [cache_get_put_self s₂ hg hp nm _]

/-- C4 witness: a cache pre-populated with an empty-string entry is hit
immediately, and a fresh name is queried once then served from the cache. -/
theorem C4_witness :
    get_company_address_from_google noWeb (Store.ofTable [("ACME", "")]) "ACME" =
      ("", Store.ofTable [("ACME", "")], []) :=
  (C4_thm noWeb (Store.ofTable [("ACME", "")]) "ACME" "" (by decide) (by decide)).1

theorem normCatAux_eq_none (lab : String) :
    ∀ (l : List (String × List String)),
      (∀ p ∈ l, lab ≠ p.1 ∧ ∀ a ∈ p.2, lowerAscii a ≠ lowerAscii lab) →
      normCatAux lab l = none
  | [], _ => rfl
  | (k, aliases) :: rest, h => by
    have hk := h (k, aliases) (by simp)
    unfold normCatAux
    rw [if_neg (by simpa using hk.1)]
    rw [if_neg ?_]
    · exact normCatAux_eq_none lab rest (fun p hp => h p (by simp [hp]))
    · simp only [List.any_eq_true, not_exists, not_and]
      intro a ha
      simpa using hk.2 a ha

/-- C8 counterexample: the label `" Unknown "` matches no canonical category
name and no alias (neither as given nor stripped, case-insensitively), yet
`_normalize_cat` does not pass it through unchanged — it returns the stripped
label `"Unknown"`. -/
theorem C8_cex :
    (THEISE_CAT_MAP.all (fun p =>
      !(" Unknown " == p.1) && !("Unknown" == p.1) &&
      p.2.all (fun a =>
        !(lowerAscii a == lowerAscii " Unknown ") &&
        !(lowerAscii a == lowerAscii "Unknown")))) = true ∧
    _normalize_cat " Unknown " = "Unknown" ∧ (" Unknown " : String) ≠ "Unknown" := by
  refine ⟨by decide, by decide, by decide⟩

/-- C8 (amended): every alias listed for a canonical category normalizes to
that canonical category, also after ASCII case changes; an unknown label
passes through the normalizer stripped of surrounding whitespace — in
particular, an already-trimmed unknown label is returned unchanged. -/
theorem C8_thm :
    (THEISE_CAT_MAP.all (fun p => p.2.all (fun a =>
      _normalize_cat a == p.1 &&
      _normalize_cat (lowerAscii a) == p.1 &&
      _normalize_cat (upperAscii a) == p.1))) = true ∧
    (∀ lab : String,
      (∀ p ∈ THEISE_CAT_MAP, strTrim lab ≠ p.1 ∧
        ∀ a ∈ p.2, lowerAscii a ≠ lowerAscii (strTrim lab)) →
      _normalize_cat lab = strTrim lab) := by
  constructor
  · decide
  · intro lab h
    show (normCatAux (strTrim lab) THEISE_CAT_MAP).getD (strTrim lab) = strTrim lab
    rw [normCatAux_eq_none (strTrim lab) THEISE_CAT_MAP h]
    rfl

/-- C8 witness: the alias `"IDM"` (in any case) normalizes to its canonical
category, and the trimmed unknown label `"Unknown"` passes through unchanged. -/
theorem C8_witness :
    _normalize_cat "idm" = "Integrated Device Manufacturer" ∧
    _normalize_cat "Unknown" = "Unknown" := by
  constructor
  · have h := C8_thm.1
    decide
  · exact C8_thm.2 "Unknown" (by decide)

theorem regionAux_mem (a : String) :
    ∀ (l : List (String × List String)), regionAux a l = "" ∨ regionAux a l ∈ l.map Prod.fst
  | [] => Or.inl rfl
  | (label, keys) :: rest => by
    unfold regionAux
    split
    · right; simp
    · rcases regionAux_mem a rest with h | h
      · exact Or.inl h
      · right; simp [h]

theorem normalize_region_ne_overseas (addr : String) :
    normalize_region_from_address addr ≠ "해외" := by
  unfold normalize_region_from_address
  rcases regionAux_mem (lowerAscii addr) REGION_KEYWORDS with h | h
  · simp [h]
  · intro hc
    rw [hc] at h
    revert h
    decide

/-- C1 counterexample: with a region filter requested and a lookup that finds
nothing, a company whose resolved address is the empty string is classified
`"해외"` (overseas) by the pipeline — the empty address does *not* yield an
empty region label on the fresh-lookup path. -/
theorem C1_cex :
    (filter_and_enrich noWeb (Store.ofTable []) [⟨"Fabless", "AcmeCo", "u"⟩]
        [] 5 ["해외"] false).1 =
      [⟨"Fabless", "AcmeCo", "해외", "", "", "u"⟩] := by
  decide

/-- C1 (amended): on the fresh-lookup path the region is `"해외"` exactly when
the resolved address carries no domestic signal — including when it is empty;
on the cache-based path an address is classified `"해외"` only when it is
non-empty and carries no domestic signal, and an empty cached address yields
an empty region label. -/
theorem C1_thm (web : String → String) (s : Store) (item : Row) (name addr : String) :
    ((_resolve_address_for_item web s item true).1.1 =
      classifyLookup (_resolve_address_for_item web s item true).1.2.1) ∧
    (classifyLookup addr = "해외" ↔ is_korea_address addr = false) ∧
    ((classifyCached name addr).1 = "해외" ↔ (addr ≠ "" ∧ is_korea_address addr = false)) ∧
    (classifyCached name "").1 = "" := by
  refine ⟨rfl, ?_, ?_, rfl⟩
  · unfold classifyLookup
    by_cases hk : is_korea_address addr
    · simp only [if_pos hk, hk]
      constructor
      · intro hr
        exfalso
        by_cases hl : normalize_region_from_address addr = ""
        · by_cases hs : containsSub "Seoul" addr <;> simp [hl, hs] at hr
        · simp at hr
          rw [if_neg hl] at hr
          exact normalize_region_ne_overseas addr hr
      · intro hr; simp at hr
    · simp [hk]
  · unfold classifyCached
    by_cases hk : is_korea_address addr
    · simp only [hk, if_pos]
      constructor
      · intro hr; exact absurd hr (normalize_region_ne_overseas addr)
      · rintro ⟨-, hr⟩; simp_all
    · by_cases ha : addr = ""
      · subst ha; simp [hk]
      · simp [hk, ha]

/-- C7 counterexample: with no region filter and no branch filter, a
cache-absent company named `"서울 코리아"` (quick heuristic fires, name
contains `"서울"`) receives the region label `"서울"` in the report — the
region is *not* left empty. -/
theorem C7_cex :
    (filter_and_enrich noWeb (Store.ofTable []) [⟨"Fabless", "서울 코리아", "u"⟩]
        [] 5 [] false).1 =
      [⟨"Fabless", "서울 코리아", "서울", "", "외국계 지사(한국)", "u"⟩] := by
  decide

/-- C7 (amended): when lookups are skipped, a cache-absent item is classified
with no store access and no queries; its branch flag is exactly the quick name
heuristic, its address is empty, and its region label is left empty — except
that when the heuristic fires and the name contains `"서울"` the region label
is `"서울"`. -/
theorem C7_thm (web : String → String) (s : Store) (item : Row)
    (h : cache_get s item.name = none) :
    _resolve_address_for_item web s item false =
      ((if quick_is_korea_name item.name then
          ((if containsSub "서울" item.name then "서울" else ""), "", true)
        else ("", "", false)), s, []) := by
  simp only [_resolve_address_for_item, h]
  by_cases hq : quick_is_korea_name item.name <;> simp [hq]

/-- C7 witness at a concrete cache-absent item whose name triggers the quick
heuristic and contains `"서울"`. -/
theorem C7_witness :
    _resolve_address_for_item noWeb (Store.ofTable []) ⟨"Fabless", "서울 코리아", "u"⟩ false =
      (("서울", "", true), Store.ofTable [], []) := by
  have h := C7_thm noWeb (Store.ofTable []) ⟨"Fabless", "서울 코리아", "u"⟩ (by decide)
  rw [h]
  decide

theorem processCategory_noLookup_pure (web : String → String) (s : Store)
    (ofb : Bool) (regions : List String) (t : String) (arr : List Row) :
    (processCategory web s false ofb regions t arr).2.1 = s ∧
    (processCategory web s false ofb regions t arr).2.2 = [] :=
  ⟨rfl, rfl⟩

theorem processGroups_noLookup_trace (web : String → String) (ofb : Bool)
    (regions : List String) (per : Int) :
    ∀ (g : List (String × List Row)) (s : Store),
      (processGroups web s false ofb regions per g).2.2 = []
  | [], _ => rfl
  | (t, arr) :: rest, s => by
    have ih := processGroups_noLookup_trace web ofb regions per rest
      ((processCategory web s false ofb regions t arr).2.1)
    simpa [processGroups] using
      And.intro (processCategory_noLookup_pure web s ofb regions t arr).2 ih

/-- C3: `filter_and_enrich` with an empty `wanted_regions` set and
`foreign_branch_only = false` performs zero calls to the external lookup
surface: the lookup trace is empty for every input, every cache state and
every lookup surface. -/
theorem C3_thm (web : String → String) (s : Store) (rows : List Row)
    (pick_types : List String) (per : Int) :
    (filter_and_enrich web s rows pick_types per [] false).2.2 = [] := by
  simp only [filter_and_enrich]
  exact processGroups_noLookup_trace web false [] per _ s

theorem dedupGo_mem_facts :
    ∀ (arr : List Row) (seen : List String) (r : Row),
      r ∈ dedupGo seen arr → r ∈ arr ∧ ¬(strTrim r.name = "")
  | [], seen, r, h => absurd h (by simp [dedupGo])
  | a :: rest, seen, r, h => by
    simp only [dedupGo] at h
    split at h
    · rcases List.mem_cons.mp h with rfl | h'
      · refine ⟨List.mem_cons_self _ _, ?_⟩
        rename_i hcond
        intro he
        rw [he] at hcond
        simp at hcond
      · have ih := dedupGo_mem_facts rest _ r h'
        exact ⟨List.mem_cons_of_mem _ ih.1, ih.2⟩
    · have ih := dedupGo_mem_facts rest seen r h
      exact ⟨List.mem_cons_of_mem _ ih.1, ih.2⟩

theorem splitCached_pre_mem (s : Store) (nl : Bool) :
    ∀ (l : List Row) (p : Row × Triple), p ∈ (splitCached s nl l).1 → p.1 ∈ l
  | [], p, h => absurd h (by simp [splitCached])
  | r :: rest, p, h => by
    cases hc : cache_get s r.name with
    | some cached =>
      simp only [splitCached, hc] at h
      split at h
      · rcases List.mem_cons.mp h with rfl | h'
        · exact List.mem_cons_self _ _
        · exact List.mem_cons_of_mem _ (splitCached_pre_mem s nl rest p h')
      · exact List.mem_cons_of_mem _ (splitCached_pre_mem s nl rest p h)
    | none =>
      simp only [splitCached, hc] at h
      exact List.mem_cons_of_mem _ (splitCached_pre_mem s nl rest p h)

theorem splitCached_res_mem (s : Store) (nl : Bool) :
    ∀ (l : List Row) (r : Row), r ∈ (splitCached s nl l).2 → r ∈ l
  | [], r, h => absurd h (by simp [splitCached])
  | a :: rest, r, h => by
    cases hc : cache_get s a.name with
    | some cached =>
      simp only [splitCached, hc] at h
      split at h
      · exact List.mem_cons_of_mem _ (splitCached_res_mem s nl rest r h)
      · rcases List.mem_cons.mp h with rfl | h'
        · exact List.mem_cons_self _ _
        · exact List.mem_cons_of_mem _ (splitCached_res_mem s nl rest r h')
    | none =>
      simp only [splitCached, hc] at h
      rcases List.mem_cons.mp h with rfl | h'
      · exact List.mem_cons_self _ _
      · exact List.mem_cons_of_mem _ (splitCached_res_mem s nl rest r h')

theorem resolveAll_trace_fst (web : String → String) :
    ∀ (l : List Row) (s : Store), ((resolveAll web s l).2.2).map Prod.fst = l.map Row.name
  | [], _ => rfl
  | r :: rest, s => by
    simp only [resolveAll, List.map_cons]
    rw [resolveAll_trace_fst web rest _]

theorem buildRow_some (ofb : Bool) (regions : List String) (t : String) (r : Row)
    (triple : Triple) (row : ReportRow) (h : buildRow ofb regions t r triple = some row) :
    row.category = t ∧ row.name = r.name ∧ row.url = r.url := by
  simp only [buildRow] at h
  split at h
  · exact absurd h (by simp)
  · split at h
    · exact absurd h (by simp)
    · rw [Option.some.injEq] at h
      subst h
      exact ⟨rfl, rfl, rfl⟩

theorem processCategory_row_mem (web : String → String) (s : Store) (nl ofb : Bool)
    (regions : List String) (t : String) (arr : List Row) :
    ∀ row ∈ (processCategory web s nl ofb regions t arr).1,
      row.category = t ∧ ∃ r ∈ dedupFirst arr, row.name = r.name := by
  intro row hrow
  simp only [processCategory] at hrow
  rw [List.mem_append] at hrow
  rcases hrow with h | h
  · rcases List.mem_filterMap.mp h with ⟨p, hp, hb⟩
    have hb2 := buildRow_some _ _ _ _ _ _ hb
    exact ⟨hb2.1, p.1, splitCached_pre_mem s nl (dedupFirst arr) p hp, hb2.2.1⟩
  · rcases List.mem_filterMap.mp h with ⟨r, hr, hb⟩
    have hb2 := buildRow_some _ _ _ _ _ _ hb
    exact ⟨hb2.1, r, splitCached_res_mem s nl (dedupFirst arr) r hr, hb2.2.1⟩

theorem processCategory_trace_eq (web : String → String) (s : Store) (nl ofb : Bool)
    (regions : List String) (t : String) (arr : List Row) :
    (processCategory web s nl ofb regions t arr).2.2 =
      if nl then (resolveAll web s (splitCached s nl (dedupFirst arr)).2).2.2 else [] := by
  cases nl <;> rfl

theorem processCategory_trace_mem (web : String → String) (s : Store) (nl ofb : Bool)
    (regions : List String) (t : String) (arr : List Row) :
    ∀ p ∈ (processCategory web s nl ofb regions t arr).2.2,
      ∃ r ∈ dedupFirst arr, p.1 = r.name := by
  intro p hp
  rw [processCategory_trace_eq] at hp
  cases nl with
  | false => simp at hp
  | true =>
    rw [if_pos rfl] at hp
    have hmap : p.1 ∈ ((resolveAll web s (splitCached s true (dedupFirst arr)).2).2.2).map Prod.fst :=
      List.mem_map_of_mem Prod.fst hp
    rw [resolveAll_trace_fst] at hmap
    rcases List.mem_map.mp hmap with ⟨r, hr, hname⟩
    exact ⟨r, splitCached_res_mem s true (dedupFirst arr) r hr, hname.symm⟩

theorem processGroups_row_mem (web : String → String) (nl ofb : Bool)
    (regions : List String) (per : Int) :
    ∀ (g : List (String × List Row)) (s : Store),
      ∀ row ∈ (processGroups web s nl ofb regions per g).1,
        ∃ t arr, (t, arr) ∈ g ∧ row.category = t ∧ ∃ r ∈ dedupFirst arr, row.name = r.name
  | [], s, row, h => absurd h (by simp [processGroups])
  | (t, arr) :: rest, s, row, h => by
    simp only [processGroups] at h
    rw [List.mem_append] at h
    rcases h with h | h
    · have hm := List.take_subset _ _ h
      have := processCategory_row_mem web s nl ofb regions t arr row hm
      exact ⟨t, arr, by simp, this.1, this.2⟩
    · rcases processGroups_row_mem web nl ofb regions per rest _ row h with ⟨t', arr', hmem, hcat, hr⟩
      exact ⟨t', arr', List.mem_cons_of_mem _ hmem, hcat, hr⟩

theorem processGroups_trace_mem (web : String → String) (nl ofb : Bool)
    (regions : List String) (per : Int) :
    ∀ (g : List (String × List Row)) (s : Store),
      ∀ p ∈ (processGroups web s nl ofb regions per g).2.2,
        ∃ t arr, (t, arr) ∈ g ∧ ∃ r ∈ dedupFirst arr, p.1 = r.name
  | [], s, p, h => absurd h (by simp [processGroups])
  | (t, arr) :: rest, s, p, h => by
    simp only [processGroups] at h
    rw [List.mem_append] at h
    rcases h with h | h
    · rcases processCategory_trace_mem web s nl ofb regions t arr p h with ⟨r, hr, hn⟩
      exact ⟨t, arr, by simp, r, hr, hn⟩
    · rcases processGroups_trace_mem web nl ofb regions per rest _ p h with ⟨t', arr', hmem, hr⟩
      exact ⟨t', arr', List.mem_cons_of_mem _ hmem, hr⟩

/-- C10: rows whose company name is empty or whitespace-only are silently
dropped by the deduplication pass: no report row carries a whitespace-only
name, and no resolver invocation is made for such a name, for every input and
every filter combination. -/
theorem C10_thm (web : String → String) (s : Store) (rows : List Row)
    (pick_types : List String) (per : Int) (regions : List String) (ofb : Bool) :
    ((filter_and_enrich web s rows pick_types per regions ofb).1.all
      (fun row => !(strTrim row.name == ""))) = true ∧
    ((filter_and_enrich web s rows pick_types per regions ofb).2.2.all
      (fun p => !(strTrim p.1 == ""))) = true := by
  constructor
  · rw [List.all_eq_true]
    intro row hrow
    rcases processGroups_row_mem web _ ofb regions per _ s row hrow with
      ⟨t, arr, -, -, r, hr, hname⟩
    have := (dedupGo_mem_facts arr [] r hr).2
    simp [hname, this]
  · rw [List.all_eq_true]
    intro p hp
    rcases processGroups_trace_mem web _ ofb regions per _ s p hp with
      ⟨t, arr, -, r, hr, hname⟩
    have := (dedupGo_mem_facts arr [] r hr).2
    simp [hname, this]

theorem groupInsert_keys (t : String) (r : Row) :
    ∀ (g : List (String × List Row)),
      (groupInsert t r g).map Prod.fst =
        if t ∈ g.map Prod.fst then g.map Prod.fst else g.map Prod.fst ++ [t]
  | [] => by simp [groupInsert]
  | (k, l) :: rest => by
    by_cases hk : k = t
    · subst hk
      simp [groupInsert]
    · have hbeq : (k == t) = false := by simp [hk]
      have htk : ¬ t = k := fun he => hk he.symm
      simp only [groupInsert, hbeq, Bool.false_eq_true, if_false, List.map_cons,
        groupInsert_keys t r rest]
      by_cases hmem : t ∈ rest.map Prod.fst
      · simp [hmem, htk]
      · simp [hmem, htk]

theorem groupInsert_keys_nodup (t : String) (r : Row) (g : List (String × List Row))
    (h : (g.map Prod.fst).Nodup) : ((groupInsert t r g).map Prod.fst).Nodup := by
  rw [groupInsert_keys]
  by_cases hmem : t ∈ g.map Prod.fst
  · simpa [hmem] using h
  · rw [if_neg hmem]
    exact List.Nodup.append h (List.nodup_singleton t) (List.disjoint_singleton.mpr hmem)

theorem buildGrouped_keys_nodup (wants : List String) :
    ∀ (rows : List Row) (g : List (String × List Row)),
      (g.map Prod.fst).Nodup → ((buildGrouped wants rows g).map Prod.fst).Nodup
  | [], g, h => h
  | r :: rest, g, h => by
    simp only [buildGrouped]
    split
    · exact buildGrouped_keys_nodup wants rest g h
    · exact buildGrouped_keys_nodup wants rest _ (groupInsert_keys_nodup _ r g h)

theorem processCategory_cat_filter_nil (web : String → String) (s : Store) (nl ofb : Bool)
    (regions : List String) (t c : String) (arr : List Row) (q : ReportRow → Bool)
    (hne : t ≠ c) :
    (processCategory web s nl ofb regions t arr).1.filter
      (fun row => row.category == c && q row) = [] := by
  rw [List.filter_eq_nil_iff]
  intro row hrow
  have := (processCategory_row_mem web s nl ofb regions t arr row hrow).1
  simp [this, hne]

theorem processGroups_cat_count_nil (web : String → String) (nl ofb : Bool)
    (regions : List String) (per : Int) (c : String) (q : ReportRow → Bool) :
    ∀ (g : List (String × List Row)) (s : Store), c ∉ g.map Prod.fst →
      (processGroups web s nl ofb regions per g).1.filter
        (fun row => row.category == c && q row) = []
  | [], s, _ => by simp [processGroups]
  | (t, arr) :: rest, s, h => by
    have hne : t ≠ c := by
      intro he; exact h (by simp [he])
    have hrest : c ∉ rest.map Prod.fst := fun hm => h (by simp [hm])
    simp only [processGroups, List.filter_append]
    rw [processGroups_cat_count_nil web nl ofb regions per c q rest _ hrest]
    rw [List.append_nil, List.filter_eq_nil_iff]
    intro row hrow
    have hmem := List.take_subset _ _ hrow
    have := (processCategory_row_mem web s nl ofb regions t arr row hmem).1
    simp [this, hne]

theorem processGroups_count_le (web : String → String) (nl ofb : Bool)
    (regions : List String) (per : Int) (c : String) :
    ∀ (g : List (String × List Row)) (s : Store), (g.map Prod.fst).Nodup →
      ((processGroups web s nl ofb regions per g).1.filter
        (fun row => row.category == c)).length ≤ (max 1 per).toNat
  | [], s, _ => by simp [processGroups]
  | (t, arr) :: rest, s, h => by
    rw [List.map_cons, List.nodup_cons] at h
    simp only [processGroups, List.filter_append, List.length_append]
    by_cases htc : t = c
    · subst htc
      have hrest :
          (processGroups web (processCategory web s nl ofb regions t arr).2.1
            nl ofb regions per rest).1.filter (fun row => row.category == t) = [] := by
        have hz := processGroups_cat_count_nil web nl ofb regions per t (fun _ => true) rest
          ((processCategory web s nl ofb regions t arr).2.1) h.1
        simpa using hz
      rw [hrest]
      simp only [List.length_nil, Nat.add_zero]
      have h1 : (((processCategory web s nl ofb regions t arr).1.take (max 1 per).toNat).filter
            (fun row => row.category == t)).length ≤
          ((processCategory web s nl ofb regions t arr).1.take (max 1 per).toNat).length :=
        List.length_filter_le _ _
      exact le_trans h1 (List.length_take_le _ _)
    · have hhead :
          ((processCategory web s nl ofb regions t arr).1.take (max 1 per).toNat).filter
            (fun row => row.category == c) = [] := by
        rw [List.filter_eq_nil_iff]
        intro row hrow
        have hmem := List.take_subset _ _ hrow
        have := (processCategory_row_mem web s nl ofb regions t arr row hmem).1
        simp [this, htc]
      rw [hhead]
      simpa using processGroups_count_le web nl ofb regions per c rest _ h.2

/-- C2: the number of report rows per category never exceeds
`per_category_limit` when the limit is at least 1; and on the synthetic input
of 10 distinct companies in one category with limit 3 and no region/branch
filter, the output has exactly 3 rows for that category. -/
theorem C2_thm (web : String → String) (s : Store) (rows : List Row)
    (pick_types : List String) (regions : List String) (ofb : Bool) (c : String)
    (per : Int) (h : 1 ≤ per) :
    ((filter_and_enrich web s rows pick_types per regions ofb).1.filter
      (fun row => row.category == c)).length ≤ per.toNat ∧
    ((filter_and_enrich noWeb (Store.ofTable []) sampleTenRows [] 3 [] false).1.filter
      (fun row => row.category == "Fabless")).length = 3 := by
  constructor
  · have hnodup := buildGrouped_keys_nodup (pick_types.map _normalize_cat) rows [] (by simp)
    have hle := processGroups_count_le web (!regions.isEmpty || ofb) ofb regions per c
      (buildGrouped (pick_types.map _normalize_cat) rows []) s hnodup
    have hmax : (max 1 per).toNat = per.toNat := by
      rw [max_eq_right h]
    rw [hmax] at hle
    exact hle
  · decide

/-- C2 witness at the synthetic 10-company input with limit 3. -/
theorem C2_witness :
    ((filter_and_enrich noWeb (Store.ofTable []) sampleTenRows [] 3 [] false).1.filter
      (fun row => row.category == "Fabless")).length ≤ (3 : Int).toNat ∧
    ((filter_and_enrich noWeb (Store.ofTable []) sampleTenRows [] 3 [] false).1.filter
      (fun row => row.category == "Fabless")).length = 3 :=
  ⟨(C2_thm noWeb (Store.ofTable []) sampleTenRows [] [] false "Fabless" 3 (by decide)).1,
   (C2_thm noWeb (Store.ofTable []) sampleTenRows [] [] false "Fabless" 3 (by decide)).2⟩

theorem dedupGo_trim_nodup :
    ∀ (arr : List Row) (seen : List String),
      (((dedupGo seen arr).map (fun r => strTrim r.name)).Nodup) ∧
      (∀ r ∈ dedupGo seen arr, strTrim r.name ∉ seen)
  | [], seen => ⟨List.nodup_nil, by simp [dedupGo]⟩
  | a :: rest, seen => by
    simp only [dedupGo]
    split
    · rename_i hcond
      simp only [Bool.and_eq_true, Bool.not_eq_true'] at hcond
      have ih := dedupGo_trim_nodup rest (strTrim a.name :: seen)
      refine ⟨?_, ?_⟩
      · rw [List.map_cons, List.nodup_cons]
        refine ⟨?_, ih.1⟩
        intro hmem
        rcases List.mem_map.mp hmem with ⟨r, hr, he⟩
        exact (ih.2 r hr) (he ▸ List.mem_cons_self _ _)
      · intro r hr
        rcases List.mem_cons.mp hr with rfl | hr'
        · intro hmem
          have : seen.contains (strTrim r.name) = true := List.elem_eq_true_of_mem hmem
          rw [this] at hcond
          simp at hcond
        · exact fun hmem => (ih.2 r hr') (List.mem_cons_of_mem _ hmem)
    · exact dedupGo_trim_nodup rest seen

theorem dedupGo_find? :
    ∀ (arr : List Row) (seen : List String) (nm : String), ¬(nm = "") → nm ∉ seen →
      (dedupGo seen arr).find? (fun r => strTrim r.name == nm) =
        arr.find? (fun r => strTrim r.name == nm)
  | [], _, _, _, _ => rfl
  | a :: rest, seen, nm, hne, hnm => by
    simp only [dedupGo]
    split
    · by_cases heq : strTrim a.name = nm
      · have hpos : (strTrim a.name == nm) = true := by simp [heq]
        simp only [List.find?_cons, hpos, if_true]
      · have hneg : (strTrim a.name == nm) = false := by simp [heq]
        simp only [List.find?_cons, hneg, if_false]
        refine dedupGo_find? rest _ nm hne ?_
        intro hmem
        rcases List.mem_cons.mp hmem with he | hmem'
        · exact heq he.symm
        · exact hnm hmem'
    · rename_i hcond
      have hdrop : strTrim a.name = "" ∨ strTrim a.name ∈ seen := by
        by_contra hno
        push_neg at hno
        exact hcond (by simp [hno.1, hno.2])
      have hne_a : (strTrim a.name == nm) = false := by
        rw [Bool.eq_false_iff]
        intro hbeq
        have heq : strTrim a.name = nm := by simpa using hbeq
        rcases hdrop with h1 | h1
        · exact hne (heq.symm.trans h1)
        · exact hnm (heq ▸ h1)
      simp only [List.find?_cons, hne_a, if_false]
      exact dedupGo_find? rest seen nm hne hnm

theorem splitCached_countP (s : Store) (nl : Bool) (p : Row → Bool) :
    ∀ (l : List Row),
      ((splitCached s nl l).1.map Prod.fst).countP p + ((splitCached s nl l).2).countP p
        = l.countP p
  | [] => by simp [splitCached]
  | r :: rest => by
    have ih := splitCached_countP s nl p rest
    cases hc : cache_get s r.name with
    | some cached =>
      simp only [splitCached, hc]
      split
      · simp only [List.map_cons, List.countP_cons]
        omega
      · simp only [List.countP_cons]
        omega
    | none =>
      simp only [splitCached, hc, List.countP_cons]
      omega

theorem countP_trim_le_one :
    ∀ (l : List Row), ((l.map (fun r => strTrim r.name)).Nodup) → ∀ (nm : String),
      l.countP (fun r => strTrim r.name == nm) ≤ 1
  | [], _, _ => by simp
  | a :: rest, h, nm => by
    rw [List.map_cons, List.nodup_cons] at h
    rw [List.countP_cons]
    by_cases hp : strTrim a.name = nm
    · have hz : rest.countP (fun r => strTrim r.name == nm) = 0 := by
        rw [List.countP_eq_zero]
        intro r hr hbeq
        have he : strTrim r.name = nm := by simpa using hbeq
        exact h.1 (List.mem_map.mpr ⟨r, hr, he.trans hp.symm⟩)
      simp [hz, hp]
    · have hb : (strTrim a.name == nm) = false := by simp [hp]
      rw [hb]
      simpa using countP_trim_le_one rest h.2 nm

theorem length_filter_filterMap_le {α β : Type _} (f : α → Option β) (q : β → Bool)
    (p : α → Bool) (h : ∀ a b, f a = some b → q b = true → p a = true) :
    ∀ (l : List α), ((l.filterMap f).filter q).length ≤ l.countP p
  | [] => by simp
  | a :: rest => by
    rw [List.countP_cons]
    have ih := length_filter_filterMap_le f q p h rest
    cases hf : f a with
    | none =>
      rw [List.filterMap_cons_none hf]
      omega
    | some b =>
      rw [List.filterMap_cons_some hf]
      by_cases hq : q b = true
      · rw [List.filter_cons_of_pos hq, List.length_cons]
        have hpa := h a b hf hq
        rw [hpa, if_pos rfl]
        omega
      · rw [List.filter_cons_of_neg (by simpa using hq)]
        omega

set_option maxHeartbeats 1000000 in
theorem processCategory_out_shape (web : String → String) (s : Store) (nl ofb : Bool)
    (regions : List String) (t : String) (arr : List Row) :
    ∃ g : Row → Option ReportRow,
      (processCategory web s nl ofb regions t arr).1 =
        ((splitCached s nl (dedupFirst arr)).1.filterMap
          (fun p => buildRow ofb regions t p.1 p.2)) ++
        ((splitCached s nl (dedupFirst arr)).2.filterMap g) ∧
      (∀ r row, g r = some row → row.name = r.name) := by
  refine ⟨fun r => buildRow ofb regions t r
    ((((if nl then resolveAll web s (splitCached s nl (dedupFirst arr)).2
        else (((splitCached s nl (dedupFirst arr)).2.map
            (fun r' : Row => (r'.name, (_resolve_address_for_item web s r' false).1)) :
          List (String × Triple)), s, ([] : Trace))).1.find?
        (fun p : String × Triple => p.1 == r.name)).map
        (fun q : String × Triple => q.2)).getD (("", "", false) : Triple)), rfl, ?_⟩
  intro r row hg
  exact (buildRow_some _ _ _ _ _ _ hg).2.1

theorem processCategory_name_count (web : String → String) (s : Store) (nl ofb : Bool)
    (regions : List String) (t : String) (arr : List Row) (nm : String) :
    ((processCategory web s nl ofb regions t arr).1.filter
      (fun row => strTrim row.name == nm)).length ≤ 1 := by
  rcases processCategory_out_shape web s nl ofb regions t arr with ⟨g, hshape, hgname⟩
  rw [hshape, List.filter_append, List.length_append]
  have hA := length_filter_filterMap_le (fun p : Row × Triple => buildRow ofb regions t p.1 p.2)
    (fun row => strTrim row.name == nm) (fun p => strTrim p.1.name == nm)
    (by
      intro a b hab hq
      have hb := (buildRow_some _ _ _ _ _ _ hab).2.1
      show (strTrim a.1.name == nm) = true
      have hq' : (strTrim b.name == nm) = true := hq
      rwa [hb] at hq')
    ((splitCached s nl (dedupFirst arr)).1)
  have hB := length_filter_filterMap_le g
    (fun row => strTrim row.name == nm) (fun r => strTrim r.name == nm)
    (by
      intro a b hab hq
      have hb := hgname a b hab
      show (strTrim a.name == nm) = true
      have hq' : (strTrim b.name == nm) = true := hq
      rwa [hb] at hq')
    ((splitCached s nl (dedupFirst arr)).2)
  have hmap : ((splitCached s nl (dedupFirst arr)).1).countP (fun p => strTrim p.1.name == nm) =
      (((splitCached s nl (dedupFirst arr)).1.map Prod.fst)).countP
        (fun r => strTrim r.name == nm) := by
    rw [List.countP_map]
    rfl
  have hsplit := splitCached_countP s nl (fun r => strTrim r.name == nm) (dedupFirst arr)
  have hone := countP_trim_le_one (dedupFirst arr) (dedupGo_trim_nodup arr []).1 nm
  omega

theorem processGroups_name_count (web : String → String) (nl ofb : Bool)
    (regions : List String) (per : Int) (c nm : String) :
    ∀ (g : List (String × List Row)) (s : Store), (g.map Prod.fst).Nodup →
      ((processGroups web s nl ofb regions per g).1.filter
        (fun row => row.category == c && strTrim row.name == nm)).length ≤ 1
  | [], s, _ => by simp [processGroups]
  | (t, arr) :: rest, s, h => by
    rw [List.map_cons, List.nodup_cons] at h
    simp only [processGroups, List.filter_append, List.length_append]
    by_cases htc : t = c
    · subst htc
      have hrest := processGroups_cat_count_nil web nl ofb regions per t
        (fun row => strTrim row.name == nm) rest
        ((processCategory web s nl ofb regions t arr).2.1) h.1
      rw [hrest]
      simp only [List.length_nil, Nat.add_zero]
      have h1 : (((processCategory web s nl ofb regions t arr).1.take (max 1 per).toNat).filter
            (fun row => row.category == t && strTrim row.name == nm)).length ≤
          (((processCategory web s nl ofb regions t arr).1).filter
            (fun row => row.category == t && strTrim row.name == nm)).length :=
        ((List.take_sublist _ _).filter _).length_le
      have h2 : (((processCategory web s nl ofb regions t arr).1).filter
            (fun row => row.category == t && strTrim row.name == nm)).length ≤
          (((processCategory web s nl ofb regions t arr).1).filter
            (fun row => strTrim row.name == nm)).length := by
        rw [← List.countP_eq_length_filter, ← List.countP_eq_length_filter]
        refine List.countP_mono_left ?_
        intro row hrow hb
        exact (Bool.and_eq_true _ _ |>.mp hb).2
      have h3 := processCategory_name_count web s nl ofb regions t arr nm
      omega
    · have hhead :
          ((processCategory web s nl ofb regions t arr).1.take (max 1 per).toNat).filter
            (fun row => row.category == c && strTrim row.name == nm) = [] := by
        rw [List.filter_eq_nil_iff]
        intro row hrow
        have hmem := List.take_subset _ _ hrow
        have := (processCategory_row_mem web s nl ofb regions t arr row hmem).1
        simp [this, htc]
      rw [hhead]
      simpa using processGroups_name_count web nl ofb regions per c nm rest _ h.2

theorem cache_get_isSome_eq (s : Store) (m : String) :
    (cache_get s m).isSome =
      (!s.getFails && (s.table.find? (fun p => p.1 == m)).isSome) := by
  unfold cache_get
  split
  · rename_i hg; simp [hg]
  · rename_i hg
    rw [Bool.not_eq_true] at hg
    split <;> rename_i hf <;> simp [hg, hf]

theorem cache_get_put_isSome (s : Store) (hp : s.putFails = false) (n a m : String)
    (h : (cache_get s m).isSome) : (cache_get (cache_put s n a) m).isSome := by
  rw [cache_get_isSome_eq, Bool.and_eq_true] at h
  rw [cache_get_isSome_eq, cache_put, if_neg (by simp [hp]), Bool.and_eq_true]
  refine ⟨h.1, ?_⟩
  rcases List.find?_isSome.mp h.2 with ⟨x, hx, hpx⟩
  rw [List.find?_isSome]
  by_cases hnm : ((n, a).1 == m) = true
  · exact ⟨(n, a), List.mem_cons_self _ _, hnm⟩
  · refine ⟨x, List.mem_cons_of_mem _ ?_, hpx⟩
    rw [List.mem_filter]
    refine ⟨hx, ?_⟩
    have hxm : x.1 = m := by simpa using hpx
    have hnm' : ¬ n = m := by simpa using hnm
    simp [hxm]
    exact fun he => hnm' he.symm

theorem resolve_cases (web : String → String) (s : Store) (name : String) :
    ((get_company_address_from_google web s name).2.2 = [] ∧
      (get_company_address_from_google web s name).2.1 = s) ∨
    (¬(name = "") ∧ cache_get s name = none ∧
      (get_company_address_from_google web s name).2.2 ≠ [] ∧
      (get_company_address_from_google web s name).2.1 =
        cache_put s name (get_company_address_from_google web s name).1) := by
  by_cases hn : (name == "") = true
  · left
    unfold get_company_address_from_google
    rw [if_pos hn]
    exact ⟨rfl, rfl⟩
  · cases hc : cache_get s name with
    | some v =>
      left
      unfold get_company_address_from_google
      rw [if_neg hn, hc]
      exact ⟨rfl, rfl⟩
    | none =>
      right
      refine ⟨by simpa using hn, rfl, ?_, ?_⟩
      · unfold get_company_address_from_google
        rw [if_neg hn, hc]
        exact runQueries_ne_nil web _ _
      · unfold get_company_address_from_google
        rw [if_neg hn, hc]

theorem queriedNames_cons_nil (n : String) (tr : Trace) :
    queriedNames ((n, ([] : List String)) :: tr) = queriedNames tr := by
  simp [queriedNames]

theorem queriedNames_cons_ne (n : String) (qs : List String) (h : qs ≠ []) (tr : Trace) :
    queriedNames ((n, qs) :: tr) = n :: queriedNames tr := by
  have : qs.isEmpty = false := by
    cases qs
    · exact absurd rfl h
    · rfl
  simp [queriedNames, List.filter_cons, this]

theorem queriedNames_append (t1 t2 : Trace) :
    queriedNames (t1 ++ t2) = queriedNames t1 ++ queriedNames t2 := by
  simp [queriedNames, List.filter_append]

theorem resolveAll_nodup (web : String → String) :
    ∀ (l : List Row) (s : Store) (prev : List String),
      s.getFails = false → s.putFails = false → prev.Nodup →
      (∀ n ∈ prev, (cache_get s n).isSome) →
      ((prev ++ queriedNames (resolveAll web s l).2.2).Nodup ∧
        (∀ n ∈ prev ++ queriedNames (resolveAll web s l).2.2,
          (cache_get (resolveAll web s l).2.1 n).isSome) ∧
        (resolveAll web s l).2.1.getFails = false ∧
        (resolveAll web s l).2.1.putFails = false)
  | [], s, prev, hg, hp, hnd, hmem => by
    simp only [resolveAll, queriedNames, List.filter_nil, List.map_nil, List.append_nil]
    exact ⟨hnd, hmem, hg, hp⟩
  | r :: rest, s, prev, hg, hp, hnd, hmem => by
    have e21 : (resolveAll web s (r :: rest)).2.1 =
        (resolveAll web (get_company_address_from_google web s r.name).2.1 rest).2.1 := rfl
    have e22 : (resolveAll web s (r :: rest)).2.2 =
        (r.name, (get_company_address_from_google web s r.name).2.2) ::
          (resolveAll web (get_company_address_from_google web s r.name).2.1 rest).2.2 := rfl
    rcases resolve_cases web s r.name with ⟨hq, hs⟩ | ⟨hn, hc, hq, hs⟩
    · rw [e21, e22, hq, hs, queriedNames_cons_nil]
      exact resolveAll_nodup web rest s prev hg hp hnd hmem
    · rw [e21, e22, hs, queriedNames_cons_ne _ _ hq]
      have hg1 : (cache_put s r.name (get_company_address_from_google web s r.name).1).getFails
          = false := by rw [cache_put_getFails]; exact hg
      have hp1 : (cache_put s r.name (get_company_address_from_google web s r.name).1).putFails
          = false := by rw [cache_put_putFails]; exact hp
      have hnotprev : r.name ∉ prev := by
        intro hm
        have hsome := hmem r.name hm
        rw [hc] at hsome
        simp at hsome
      have hnd1 : (prev ++ [r.name]).Nodup :=
        List.Nodup.append hnd (List.nodup_singleton _) (List.disjoint_singleton.mpr hnotprev)
      have hmem1 : ∀ n ∈ prev ++ [r.name],
          (cache_get (cache_put s r.name (get_company_address_from_google web s r.name).1)
            n).isSome := by
        intro n hn'
        rcases List.mem_append.mp hn' with hn' | hn'
        · exact cache_get_put_isSome s hp r.name _ n (hmem n hn')
        · rw [List.mem_singleton.mp hn']
          rw [cache_get_put_self s hg hp _ _]
          rfl
      have ih := resolveAll_nodup web rest
        (cache_put s r.name (get_company_address_from_google web s r.name).1)
        (prev ++ [r.name]) hg1 hp1 hnd1 hmem1
      rw [List.append_cons prev r.name _]
      exact ih

theorem processCategory_nodup (web : String → String) (s : Store) (nl ofb : Bool)
    (regions : List String) (t : String) (arr : List Row) (prev : List String)
    (hg : s.getFails = false) (hp : s.putFails = false) (hnd : prev.Nodup)
    (hmem : ∀ n ∈ prev, (cache_get s n).isSome) :
    ((prev ++ queriedNames (processCategory web s nl ofb regions t arr).2.2).Nodup ∧
      (∀ n ∈ prev ++ queriedNames (processCategory web s nl ofb regions t arr).2.2,
        (cache_get (processCategory web s nl ofb regions t arr).2.1 n).isSome) ∧
      (processCategory web s nl ofb regions t arr).2.1.getFails = false ∧
      (processCategory web s nl ofb regions t arr).2.1.putFails = false) := by
  cases nl with
  | true =>
    have e1 : (processCategory web s true ofb regions t arr).2.1 =
        (resolveAll web s (splitCached s true (dedupFirst arr)).2).2.1 := rfl
    have e2 : (processCategory web s true ofb regions t arr).2.2 =
        (resolveAll web s (splitCached s true (dedupFirst arr)).2).2.2 := rfl
    rw [e1, e2]
    exact resolveAll_nodup web _ s prev hg hp hnd hmem
  | false =>
    have e1 : (processCategory web s false ofb regions t arr).2.1 = s := rfl
    have e2 : (processCategory web s false ofb regions t arr).2.2 = [] := rfl
    rw [e1, e2]
    have hq : queriedNames [] = [] := rfl
    rw [hq, List.append_nil]
    exact ⟨hnd, hmem, hg, hp⟩

theorem processGroups_nodup (web : String → String) (nl ofb : Bool)
    (regions : List String) (per : Int) :
    ∀ (g : List (String × List Row)) (s : Store) (prev : List String),
      s.getFails = false → s.putFails = false → prev.Nodup →
      (∀ n ∈ prev, (cache_get s n).isSome) →
      ((prev ++ queriedNames (processGroups web s nl ofb regions per g).2.2).Nodup ∧
        (∀ n ∈ prev ++ queriedNames (processGroups web s nl ofb regions per g).2.2,
          (cache_get (processGroups web s nl ofb regions per g).2.1 n).isSome) ∧
        (processGroups web s nl ofb regions per g).2.1.getFails = false ∧
        (processGroups web s nl ofb regions per g).2.1.putFails = false)
  | [], s, prev, hg, hp, hnd, hmem => by
    simp only [processGroups, queriedNames, List.filter_nil, List.map_nil, List.append_nil]
    exact ⟨hnd, hmem, hg, hp⟩
  | (t, arr) :: rest, s, prev, hg, hp, hnd, hmem => by
    have e1 : (processGroups web s nl ofb regions per ((t, arr) :: rest)).2.1 =
        (processGroups web (processCategory web s nl ofb regions t arr).2.1
          nl ofb regions per rest).2.1 := rfl
    have e2 : (processGroups web s nl ofb regions per ((t, arr) :: rest)).2.2 =
        (processCategory web s nl ofb regions t arr).2.2 ++
        (processGroups web (processCategory web s nl ofb regions t arr).2.1
          nl ofb regions per rest).2.2 := rfl
    rw [e1, e2, queriedNames_append, ← List.append_assoc]
    have hcat := processCategory_nodup web s nl ofb regions t arr prev hg hp hnd hmem
    exact processGroups_nodup web nl ofb regions per rest _ _
      hcat.2.2.1 hcat.2.2.2 hcat.1 hcat.2.1

/-- C6: within each category, duplicate company names collapse to at most one
report row, the representative kept by the dedup pass being the first
occurrence (in document order) of its stripped name; and on a working backing
store, fresh search queries are issued for each company name at most once per
`filter_and_enrich` call, even when the name appears in several categories. -/
theorem C6_thm (web : String → String) (s : Store) (hg : s.getFails = false)
    (hp : s.putFails = false) (rows : List Row) (pick_types regions : List String)
    (per : Int) (ofb : Bool) :
    (∀ c nm : String,
      ((filter_and_enrich web s rows pick_types per regions ofb).1.filter
        (fun row => row.category == c && strTrim row.name == nm)).length ≤ 1) ∧
    (∀ (arr : List Row) (nm : String), ¬(nm = "") →
      (dedupFirst arr).find? (fun r => strTrim r.name == nm) =
        arr.find? (fun r => strTrim r.name == nm)) ∧
    (queriedNames (filter_and_enrich web s rows pick_types per regions ofb).2.2).Nodup := by
  refine ⟨?_, ?_, ?_⟩
  · intro c nm
    have hnodup := buildGrouped_keys_nodup (pick_types.map _normalize_cat) rows [] (by simp)
    exact processGroups_name_count web (!regions.isEmpty || ofb) ofb regions per c nm
      (buildGrouped (pick_types.map _normalize_cat) rows []) s hnodup
  · intro arr nm hne
    exact dedupGo_find? arr [] nm hne (by simp)
  · have h := processGroups_nodup web (!regions.isEmpty || ofb) ofb regions per
      (buildGrouped (pick_types.map _normalize_cat) rows []) s [] hg hp List.nodup_nil
      (by simp)
    simpa using h.1

/-- C6 witness at a concrete input: at most one row for a concrete
(category, name) pair. -/
theorem C6_witness :
    ((filter_and_enrich noWeb (Store.ofTable []) sampleTenRows [] 3 [] false).1.filter
      (fun row => row.category == "Fabless" && strTrim row.name == "Co0")).length ≤ 1 :=
  (C6_thm noWeb (Store.ofTable []) rfl rfl sampleTenRows [] [] 3 false).1 "Fabless" "Co0"
